import Mathlib

/-!
Shallow embedding of the `bst-rs` crate (`src/lib.rs`): a binary search tree
`Bst<E>` with optional boxed children, a stack-based in-order iterator
(`BstIter`), `insert`, the `Display` rendering, `clone`, and `sum`.

Rust's in-place mutation (`insert`, iterator stepping) is modelled by
functions returning the updated value; `Option<Box<Bst<E>>>` is modelled as
`Option (Bst E)`; the iterator's `Vec` stack is a `List` whose head is the
top of the stack.
-/

/-- Rust `pub struct Bst<E> { value: E, left: Option<Box<Bst<E>>>, right: Option<Box<Bst<E>>> }`. -/
inductive Bst (E : Type) : Type where
  | mk (value : E) (left : Option (Bst E)) (right : Option (Bst E)) : Bst E

namespace Bst

variable {E : Type}

/-- Field accessor for `value`. -/
def value : Bst E → E
  | .mk v _ _ => v

/-- Field accessor for `left`. -/
def left : Bst E → Option (Bst E)
  | .mk _ l _ => l

/-- Field accessor for `right`. -/
def right : Bst E → Option (Bst E)
  | .mk _ _ r => r

/-- Structural induction principle for the nested inductive `Bst`. -/
theorem indOn {P : Bst E → Prop}
    (h : ∀ v l r, (∀ t, l = some t → P t) → (∀ t, r = some t → P t) → P (.mk v l r)) :
    ∀ t, P t
  | .mk v l r =>
    h v l r (fun t ht => indOn h t) (fun t ht => indOn h t)
termination_by t => sizeOf t
decreasing_by
  · subst ht; simp; omega
  · subst ht; simp; omega

@[simp] theorem value_mk (v : E) (l r : Option (Bst E)) : (Bst.mk v l r).value = v := rfl
@[simp] theorem left_mk (v : E) (l r : Option (Bst E)) : (Bst.mk v l r).left = l := rfl
@[simp] theorem right_mk (v : E) (l r : Option (Bst E)) : (Bst.mk v l r).right = r := rfl

/-- Rust `Bst::new`: a node with the given value and empty subtrees. -/
def new (value : E) : Bst E := .mk value none none

/-- Rust `insert`: three-way comparison against the node value; equal means no
insertion (`false`), less goes left, greater goes right, attaching a fresh
leaf when the child is absent.  The Rust method mutates `self` and returns
`bool`; here it returns the flag together with the updated tree. -/
def insert [LinearOrder E] : Bst E → E → Bool × Bst E
  | .mk v l r, newVal =>
    match compare newVal v with
    | .eq => (false, .mk v l r)
    | .lt =>
      match l with
      | some leftChild =>
        let res := leftChild.insert newVal
        (res.1, .mk v (some res.2) r)
      | none => (true, .mk v (some (Bst.new newVal)) r)
    | .gt =>
      match r with
      | some rightChild =>
        let res := rightChild.insert newVal
        (res.1, .mk v l (some res.2))
      | none => (true, .mk v l (some (Bst.new newVal)))

/-- Rust `#[derive(Clone)]`: recursive deep copy of the node and both subtrees. -/
def clone : Bst E → Bst E
  | .mk v l r =>
    .mk v
      (match l with | some lt' => some lt'.clone | none => none)
      (match r with | some rt' => some rt'.clone | none => none)

end Bst

/-- In-order listing of an optional subtree (`none` contributes nothing);
the reference semantics of in-order traversal: left subtree, node value,
right subtree. -/
def inorderO {E : Type} : Option (Bst E) → List E
  | none => []
  | some (.mk v l r) => inorderO l ++ v :: inorderO r

/-- In-order listing of a tree. -/
def Bst.inorder {E : Type} (t : Bst E) : List E := inorderO (some t)

/-- Number of nodes in an optional subtree. -/
def sizeO {E : Type} : Option (Bst E) → Nat
  | none => 0
  | some (.mk _ l r) => 1 + sizeO l + sizeO r

/-- Height (number of nodes on the longest root-to-leaf path) of an optional
subtree. -/
def heightO {E : Type} : Option (Bst E) → Nat
  | none => 0
  | some (.mk _ l r) => 1 + max (heightO l) (heightO r)

/-- Rust `fmt::Display for Bst`: if a left child is present, render it followed by
a space; render the value; if a right child is present, render a space
followed by it.  `f` plays the role of the element type's `Display`. -/
def Bst.render {E : Type} (f : E → String) : Bst E → String
  | .mk v l r =>
    (match l with | some leftChild => Bst.render f leftChild ++ " " | none => "")
      ++ f v
      ++ (match r with | some rightChild => " " ++ Bst.render f rightChild | none => "")

namespace BstIter

variable {E : Type}

/-- Rust `BstIter::fill_left`: push `node`, then recursively push its left
children.  The stack is a list with the top at the head. -/
def fillLeft : Bst E → List (Bst E) → List (Bst E)
  | t@(.mk _ (some leftChild) _), stack => fillLeft leftChild (t :: stack)
  | t@(.mk _ none _), stack => t :: stack

/-- Rust `BstIter::new`: start from an empty stack and fill the left spine of the
root. -/
def new (node : Bst E) : List (Bst E) := fillLeft node []

/-- Rust `Iterator::next for BstIter`: pop the top of the stack; if the popped
node has a right child, fill the left spine of that child; return the popped
node's value.  Returns the yielded element together with the updated stack. -/
def next : List (Bst E) → Option E × List (Bst E)
  | [] => (none, [])
  | t :: rest =>
    match t.right with
    | some rightChild => (some t.value, fillLeft rightChild rest)
    | none => (some t.value, rest)

/-- Remaining in-order elements owed by a stack: each stacked node owes its
own value followed by its right subtree, from top to bottom. -/
def stackInorder : List (Bst E) → List E
  | [] => []
  | t :: rest => t.value :: (inorderO t.right ++ stackInorder rest)

/-- Termination measure for draining a stack: each stacked node still owes
itself plus its entire right subtree. -/
def stackMeasure : List (Bst E) → Nat
  | [] => 0
  | t :: rest => 1 + sizeO t.right + stackMeasure rest

theorem stackMeasure_fillLeft (t : Bst E) :
    ∀ s : List (Bst E), stackMeasure (fillLeft t s) = sizeO (some t) + stackMeasure s := by
  induction t using Bst.indOn with
  | h v l r ihl ihr =>
    intro s
    match l with
    | some leftChild =>
      simp only [fillLeft]
      rw [ihl leftChild rfl]
      simp only [stackMeasure, sizeO, Bst.right_mk]
      omega
    | none =>
      simp only [fillLeft]
      simp only [stackMeasure, sizeO, Bst.right_mk]

/-- Drain a stack: repeatedly take `next` until the stack is empty,
collecting the yielded values.  This is the list of elements produced by a
`for` loop over the iterator. -/
def drain : List (Bst E) → List E
  | [] => []
  | .mk v l (some rightChild) :: rest => v :: drain (fillLeft rightChild rest)
  | .mk v l none :: rest => v :: drain rest
termination_by s => stackMeasure s
decreasing_by
  · rw [stackMeasure_fillLeft, stackMeasure]
    simp only [Bst.right_mk]
    omega
  · rw [stackMeasure]
    simp only [Bst.right_mk, sizeO]
    omega

/-- Function `drain` agrees with the step function `next`. -/
theorem drain_next (s : List (Bst E)) :
    drain s = match (next s).1 with
              | none => []
              | some v => v :: drain (next s).2 := by
  match s with
  | [] => simp [drain, next]
  | .mk v l (some rightChild) :: rest => simp [drain, next]
  | .mk v l none :: rest => simp [drain, next]

theorem stackInorder_fillLeft (t : Bst E) :
    ∀ s : List (Bst E), stackInorder (fillLeft t s) = inorderO (some t) ++ stackInorder s := by
  induction t using Bst.indOn with
  | h v l r ihl ihr =>
    intro s
    match l with
    | some leftChild =>
      simp only [fillLeft]
      rw [ihl leftChild rfl]
      simp [stackInorder, inorderO]
    | none =>
      simp only [fillLeft]
      simp [stackInorder, inorderO]

/-- Master lemma: draining a stack yields exactly the elements the stack
still owes, i.e. each stacked node's value followed by its right subtree's
in-order listing, top to bottom. -/
theorem drain_eq_stackInorder : ∀ s : List (Bst E), drain s = stackInorder s := by
  intro s
  induction s using drain.induct with
  | case1 => simp [drain, stackInorder]
  | case2 v l rightChild rest ih =>
    rw [drain, ih, stackInorder_fillLeft]
    simp [stackInorder]
  | case3 v l rest ih =>
    rw [drain, ih]
    simp [stackInorder, inorderO]

end BstIter

/-- Rust `Bst::iter` followed by collecting every yielded element: the in-order
element sequence the iterator produces for a tree. -/
def Bst.iterList {E : Type} (t : Bst E) : List E := BstIter.drain (BstIter.new t)

/-- Rust `sum`: fold the iterator starting from `E::from(0)`, accumulating each
visited value into the accumulator with `+=`. -/
def Bst.sum {E : Type} [Zero E] [Add E] (t : Bst E) : E :=
  t.iterList.foldl (fun accum value => accum + value) 0

theorem inorderO_some {E : Type} (t : Bst E) : inorderO (some t) = t.inorder := rfl

/-- The elements produced by the iterator are exactly the in-order listing
of the tree, for trees of any shape over any element type. -/
theorem Bst.iterList_eq_inorder {E : Type} (t : Bst E) : t.iterList = t.inorder := by
  unfold Bst.iterList BstIter.new
  rw [BstIter.drain_eq_stackInorder, BstIter.stackInorder_fillLeft]
  simp [BstIter.stackInorder, Bst.inorder]

/-- The BST ordering invariant (§3 of the spec): every value in the left
subtree is less than the node value, every value in the right subtree is
greater, recursively. -/
def IsBstO {E : Type} [LinearOrder E] : Option (Bst E) → Prop
  | none => True
  | some (.mk v l r) =>
    (∀ x ∈ inorderO l, x < v) ∧ (∀ x ∈ inorderO r, v < x) ∧ IsBstO l ∧ IsBstO r

theorem isBstO_new {E : Type} [LinearOrder E] (v : E) : IsBstO (some (Bst.new v)) := by
  simp [Bst.new, IsBstO, inorderO]

/-- Branch-wise unfolding of `insert`: the `Equal` arm. -/
theorem Bst.insert_of_compare_eq {E : Type} [LinearOrder E] {v nv : E}
    (l r : Option (Bst E)) (h : compare nv v = Ordering.eq) :
    (Bst.mk v l r).insert nv = (false, Bst.mk v l r) := by
  cases l <;> cases r <;>
    simp only [Bst.insert.eq_1, Bst.insert.eq_2, Bst.insert.eq_3, Bst.insert.eq_4, h]

/-- Branch-wise unfolding of `insert`: the `Less` arm with a left child. -/
theorem Bst.insert_of_compare_lt_some {E : Type} [LinearOrder E] {v nv : E}
    (leftChild : Bst E) (r : Option (Bst E)) (h : compare nv v = Ordering.lt) :
    (Bst.mk v (some leftChild) r).insert nv =
      ((leftChild.insert nv).1, Bst.mk v (some (leftChild.insert nv).2) r) := by
  cases r <;> simp only [Bst.insert.eq_1, Bst.insert.eq_2, h]

/-- Branch-wise unfolding of `insert`: the `Less` arm without a left child. -/
theorem Bst.insert_of_compare_lt_none {E : Type} [LinearOrder E] {v nv : E}
    (r : Option (Bst E)) (h : compare nv v = Ordering.lt) :
    (Bst.mk v none r).insert nv = (true, Bst.mk v (some (Bst.new nv)) r) := by
  cases r <;> simp only [Bst.insert.eq_3, Bst.insert.eq_4, h]

/-- Branch-wise unfolding of `insert`: the `Greater` arm with a right child. -/
theorem Bst.insert_of_compare_gt_some {E : Type} [LinearOrder E] {v nv : E}
    (l : Option (Bst E)) (rightChild : Bst E) (h : compare nv v = Ordering.gt) :
    (Bst.mk v l (some rightChild)).insert nv =
      ((rightChild.insert nv).1, Bst.mk v l (some (rightChild.insert nv).2)) := by
  cases l <;> simp only [Bst.insert.eq_1, Bst.insert.eq_3, h]

/-- Branch-wise unfolding of `insert`: the `Greater` arm without a right child. -/
theorem Bst.insert_of_compare_gt_none {E : Type} [LinearOrder E] {v nv : E}
    (l : Option (Bst E)) (h : compare nv v = Ordering.gt) :
    (Bst.mk v l none).insert nv = (true, Bst.mk v l (some (Bst.new nv))) := by
  cases l <;> simp only [Bst.insert.eq_2, Bst.insert.eq_4, h]

/-- Membership after `insert`: the updated tree holds exactly the old
elements plus the inserted value. -/
theorem Bst.mem_insert {E : Type} [LinearOrder E] (t : Bst E) (nv : E) (x : E) :
    x ∈ inorderO (some ((t.insert nv).2)) ↔ x = nv ∨ x ∈ inorderO (some t) := by
  induction t, nv using Bst.insert.induct with
  | case1 v l r nv h =>
    have hv : nv = v := compare_eq_iff_eq.mp h
    subst hv
    rw [Bst.insert_of_compare_eq l r h]
    simp only [inorderO, List.mem_append, List.mem_cons]
    tauto
  | case2 v r nv h leftChild ih =>
    rw [Bst.insert_of_compare_lt_some leftChild r h]
    simp only [inorderO, List.mem_append, List.mem_cons] at ih ⊢
    rw [ih]
    tauto
  | case3 v r nv h =>
    rw [Bst.insert_of_compare_lt_none r h]
    simp only [Bst.new, inorderO, List.mem_append, List.mem_cons, List.not_mem_nil,
      List.nil_append]
    tauto
  | case4 v l nv h rightChild ih =>
    rw [Bst.insert_of_compare_gt_some l rightChild h]
    simp only [inorderO, List.mem_append, List.mem_cons] at ih ⊢
    rw [ih]
    tauto
  | case5 v l nv h =>
    rw [Bst.insert_of_compare_gt_none l h]
    simp only [Bst.new, inorderO, List.mem_append, List.mem_cons, List.not_mem_nil,
      List.nil_append]
    tauto

/-- Inserting preserves the BST invariant. -/
theorem Bst.insert_isBst {E : Type} [LinearOrder E] (t : Bst E) (nv : E)
    (hb : IsBstO (some t)) : IsBstO (some ((t.insert nv).2)) := by
  induction t, nv using Bst.insert.induct with
  | case1 v l r nv h =>
    rw [Bst.insert_of_compare_eq l r h]
    exact hb
  | case2 v r nv h leftChild ih =>
    have hlt : nv < v := compare_lt_iff_lt.mp h
    simp only [IsBstO] at hb
    obtain ⟨hL, hR, hbl, hbr⟩ := hb
    rw [Bst.insert_of_compare_lt_some leftChild r h]
    simp only [IsBstO]
    refine ⟨?_, hR, ih hbl, hbr⟩
    intro x hx
    rcases (Bst.mem_insert leftChild nv x).mp hx with rfl | hx'
    · exact hlt
    · exact hL x hx'
  | case3 v r nv h =>
    have hlt : nv < v := compare_lt_iff_lt.mp h
    simp only [IsBstO] at hb
    obtain ⟨hL, hR, hbl, hbr⟩ := hb
    rw [Bst.insert_of_compare_lt_none r h]
    simp only [IsBstO]
    refine ⟨?_, hR, isBstO_new nv, hbr⟩
    intro x hx
    simp only [Bst.new, inorderO, List.nil_append, List.mem_cons, List.not_mem_nil,
      or_false] at hx
    subst hx
    exact hlt
  | case4 v l nv h rightChild ih =>
    have hgt : v < nv := compare_gt_iff_gt.mp h
    simp only [IsBstO] at hb
    obtain ⟨hL, hR, hbl, hbr⟩ := hb
    rw [Bst.insert_of_compare_gt_some l rightChild h]
    simp only [IsBstO]
    refine ⟨hL, ?_, hbl, ih hbr⟩
    intro x hx
    rcases (Bst.mem_insert rightChild nv x).mp hx with rfl | hx'
    · exact hgt
    · exact hR x hx'
  | case5 v l nv h =>
    have hgt : v < nv := compare_gt_iff_gt.mp h
    simp only [IsBstO] at hb
    obtain ⟨hL, hR, hbl, hbr⟩ := hb
    rw [Bst.insert_of_compare_gt_none l h]
    simp only [IsBstO]
    refine ⟨hL, ?_, hbl, isBstO_new nv⟩
    intro x hx
    simp only [Bst.new, inorderO, List.nil_append, List.mem_cons, List.not_mem_nil,
      or_false] at hx
    subst hx
    exact hgt

/-- On a tree satisfying the BST invariant, inserting a value that is
already present returns `false` and the unchanged tree. -/
theorem Bst.insert_present {E : Type} [LinearOrder E] (t : Bst E) (nv : E)
    (hb : IsBstO (some t)) (hm : nv ∈ inorderO (some t)) : t.insert nv = (false, t) := by
  induction t, nv using Bst.insert.induct with
  | case1 v l r nv h =>
    exact Bst.insert_of_compare_eq l r h
  | case2 v r nv h leftChild ih =>
    have hlt : nv < v := compare_lt_iff_lt.mp h
    simp only [IsBstO] at hb
    obtain ⟨hL, hR, hbl, hbr⟩ := hb
    have hml : nv ∈ inorderO (some leftChild) := by
      simp only [inorderO, List.mem_append, List.mem_cons] at hm
      rcases hm with hm | hm | hm
      · exact hm
      · exact absurd hm (ne_of_lt hlt)
      · exact absurd (hR nv hm) (lt_asymm hlt)
    rw [Bst.insert_of_compare_lt_some leftChild r h, ih hbl hml]
  | case3 v r nv h =>
    have hlt : nv < v := compare_lt_iff_lt.mp h
    simp only [IsBstO] at hb
    obtain ⟨hL, hR, hbl, hbr⟩ := hb
    exfalso
    simp only [inorderO, List.nil_append, List.mem_cons] at hm
    rcases hm with hm | hm
    · exact absurd hm (ne_of_lt hlt)
    · exact absurd (hR nv hm) (lt_asymm hlt)
  | case4 v l nv h rightChild ih =>
    have hgt : v < nv := compare_gt_iff_gt.mp h
    simp only [IsBstO] at hb
    obtain ⟨hL, hR, hbl, hbr⟩ := hb
    have hmr : nv ∈ inorderO (some rightChild) := by
      simp only [inorderO, List.mem_append, List.mem_cons] at hm
      rcases hm with hm | hm | hm
      · exact absurd (hL nv hm) (lt_asymm hgt)
      · exact absurd hm.symm (ne_of_lt hgt)
      · exact hm
    rw [Bst.insert_of_compare_gt_some l rightChild h, ih hbr hmr]
  | case5 v l nv h =>
    have hgt : v < nv := compare_gt_iff_gt.mp h
    simp only [IsBstO] at hb
    obtain ⟨hL, hR, hbl, hbr⟩ := hb
    exfalso
    simp only [inorderO, List.mem_append, List.mem_cons, List.not_mem_nil, or_false] at hm
    rcases hm with hm | hm
    · exact absurd (hL nv hm) (lt_asymm hgt)
    · exact absurd hm.symm (ne_of_lt hgt)

/-- On a tree satisfying the BST invariant, the in-order listing is strictly
ascending. -/
theorem Bst.inorder_sorted {E : Type} [LinearOrder E] (t : Bst E)
    (hb : IsBstO (some t)) : (inorderO (some t)).Sorted (· < ·) := by
  induction t using Bst.indOn with
  | h v l r ihl ihr =>
    simp only [IsBstO] at hb
    obtain ⟨hL, hR, hbl, hbr⟩ := hb
    simp only [inorderO]
    unfold List.Sorted
    rw [List.pairwise_append, List.pairwise_cons]
    refine ⟨?_, ⟨hR, ?_⟩, ?_⟩
    · match l with
      | none => simp [inorderO]
      | some leftChild => exact ihl leftChild rfl hbl
    · match r with
      | none => simp [inorderO]
      | some rightChild => exact ihr rightChild rfl hbr
    · intro a ha b hbmem
      rcases List.mem_cons.mp hbmem with rfl | hb'
      · exact hL a ha
      · exact lt_trans (hL a ha) (hR b hb')

/-- A tree built as the client code does (and as §2 of the spec describes):
construct a root from `v0`, then `insert` each element of `vs` in order. -/
def buildTree {E : Type} [LinearOrder E] (v0 : E) (vs : List E) : Bst E :=
  vs.foldl (fun t v => (t.insert v).2) (Bst.new v0)

theorem foldl_insert_spec {E : Type} [LinearOrder E] (vs : List E) :
    ∀ t : Bst E, IsBstO (some t) →
      IsBstO (some (vs.foldl (fun t v => (t.insert v).2) t)) ∧
      (∀ x, x ∈ inorderO (some (vs.foldl (fun t v => (t.insert v).2) t)) ↔
            x ∈ vs ∨ x ∈ inorderO (some t)) := by
  induction vs with
  | nil =>
    intro t ht
    simp only [List.foldl_nil]
    exact ⟨ht, fun x => by simp⟩
  | cons v rest ih =>
    intro t ht
    simp only [List.foldl_cons]
    obtain ⟨h1, h2⟩ := ih ((t.insert v).2) (Bst.insert_isBst t v ht)
    refine ⟨h1, fun x => ?_⟩
    rw [h2 x, Bst.mem_insert]
    simp only [List.mem_cons]
    tauto

theorem buildTree_isBst {E : Type} [LinearOrder E] (v0 : E) (vs : List E) :
    IsBstO (some (buildTree v0 vs)) :=
  (foldl_insert_spec vs (Bst.new v0) (isBstO_new v0)).1

theorem mem_buildTree {E : Type} [LinearOrder E] (v0 : E) (vs : List E) (x : E) :
    x ∈ inorderO (some (buildTree v0 vs)) ↔ x ∈ v0 :: vs := by
  rw [buildTree, (foldl_insert_spec vs (Bst.new v0) (isBstO_new v0)).2 x]
  simp [Bst.new, inorderO, List.mem_cons]
  tauto

theorem nodup_inorder_buildTree {E : Type} [LinearOrder E] (v0 : E) (vs : List E) :
    (inorderO (some (buildTree v0 vs))).Nodup :=
  List.Pairwise.imp (fun h => ne_of_lt h)
    (Bst.inorder_sorted (buildTree v0 vs) (buildTree_isBst v0 vs))

theorem inorder_buildTree_perm {E : Type} [LinearOrder E] [DecidableEq E]
    (v0 : E) (vs : List E) :
    (inorderO (some (buildTree v0 vs))).Perm ((v0 :: vs).dedup) := by
  apply List.perm_of_nodup_nodup_toFinset_eq (nodup_inorder_buildTree v0 vs)
    (List.nodup_dedup _)
  ext x
  simp only [List.mem_toFinset, mem_buildTree, List.mem_dedup]

theorem length_inorderO {E : Type} (t : Bst E) :
    (inorderO (some t)).length = sizeO (some t) := by
  induction t using Bst.indOn with
  | h v l r ihl ihr =>
    have hl : (inorderO l).length = sizeO l := by
      cases l with
      | none => simp [inorderO, sizeO]
      | some leftChild => exact ihl leftChild rfl
    have hr : (inorderO r).length = sizeO r := by
      cases r with
      | none => simp [inorderO, sizeO]
      | some rightChild => exact ihr rightChild rfl
    simp only [inorderO, sizeO, List.length_append, List.length_cons]
    omega

theorem inorderO_ne_nil {E : Type} (t : Bst E) : inorderO (some t) ≠ [] := by
  cases t with
  | mk v l r => simp [inorderO]

/-- Join a list of strings with a single space between consecutive elements:
no separator before the first or after the last element. -/
def joinSp : List String → String
  | [] => ""
  | [x] => x
  | x :: xs => x ++ " " ++ joinSp xs

theorem joinSp_cons_cons (x y : String) (xs : List String) :
    joinSp (x :: y :: xs) = x ++ " " ++ joinSp (y :: xs) := rfl

theorem joinSp_append (a b : List String) (ha : a ≠ []) (hb : b ≠ []) :
    joinSp (a ++ b) = joinSp a ++ " " ++ joinSp b := by
  induction a with
  | nil => exact absurd rfl ha
  | cons x xs ih =>
    cases xs with
    | nil =>
      cases b with
      | nil => exact absurd rfl hb
      | cons y ys => simp [joinSp_cons_cons, joinSp]
    | cons y ys =>
      simp only [List.cons_append]
      rw [joinSp_cons_cons, ← List.cons_append, ih (by simp), joinSp_cons_cons]
      simp only [String.append_assoc]

theorem data_ne_nil_of_ne_empty (s : String) (h : s ≠ "") : s.data ≠ [] := by
  intro hd
  exact h (String.ext (by simpa using hd))

theorem joinSp_data_head (x : String) (xs : List String) (hx : x.data ≠ []) :
    (joinSp (x :: xs)).data.head? = x.data.head? := by
  cases xs with
  | nil => rfl
  | cons y ys =>
    rw [joinSp_cons_cons]
    simp only [String.data_append]
    rw [List.append_assoc]
    exact List.head?_append_of_ne_nil _ hx

theorem joinSp_data_getLast (xs : List String) (x : String) (hx : x.data ≠ []) :
    (joinSp (xs ++ [x])).data.getLast? = x.data.getLast? := by
  cases xs with
  | nil => rfl
  | cons y ys =>
    rw [joinSp_append (y :: ys) [x] (by simp) (by simp)]
    rw [show joinSp [x] = x from rfl]
    simp only [String.data_append]
    exact List.getLast?_append_of_ne_nil _ hx

/-- Function `render` produces exactly the space-joined in-order listing. -/
theorem render_eq_joinSp {E : Type} (f : E → String) (t : Bst E) :
    t.render f = joinSp ((inorderO (some t)).map f) := by
  induction t using Bst.indOn with
  | h v l r ihl ihr =>
    match l, r with
    | none, none =>
      simp [Bst.render, inorderO, joinSp]
    | some leftChild, none =>
      rw [show (inorderO (some (Bst.mk v (some leftChild) none))).map f
            = (inorderO (some leftChild)).map f ++ [f v] by simp [inorderO]]
      rw [joinSp_append _ [f v]
        (by simp [inorderO_ne_nil leftChild]) (by simp)]
      simp only [Bst.render, joinSp, String.append_empty]
      rw [ihl leftChild rfl]
    | none, some rightChild =>
      rw [show (inorderO (some (Bst.mk v none (some rightChild)))).map f
            = [f v] ++ (inorderO (some rightChild)).map f by simp [inorderO]]
      rw [joinSp_append [f v] _ (by simp)
        (by simp [inorderO_ne_nil rightChild])]
      simp only [Bst.render, joinSp, String.empty_append]
      rw [ihr rightChild rfl, String.append_assoc]
    | some leftChild, some rightChild =>
      rw [show (inorderO (some (Bst.mk v (some leftChild) (some rightChild)))).map f
            = (inorderO (some leftChild)).map f
              ++ ([f v] ++ (inorderO (some rightChild)).map f) by simp [inorderO]]
      rw [joinSp_append _ _ (by simp [inorderO_ne_nil leftChild]) (by simp),
        joinSp_append [f v] _ (by simp) (by simp [inorderO_ne_nil rightChild])]
      simp only [Bst.render, joinSp]
      rw [ihl leftChild rfl, ihr rightChild rfl]
      simp only [String.append_assoc]

namespace BstIter

variable {E : Type}

/-- The stack update performed by one call to `next` (the yielded element
dropped). -/
def step (s : List (Bst E)) : List (Bst E) := (next s).2

/-- Number of stack pushes `fill_left` performs on its argument: the length
of the argument's left spine. This is also the depth of the recursive calls
`fill_left` makes. -/
def fillLeftCost : Bst E → Nat
  | .mk _ (some leftChild) _ => 1 + fillLeftCost leftChild
  | .mk _ none _ => 1

/-- Total number of stack pushes performed by all the `next` calls that
drain the given stack. -/
def drainCost : List (Bst E) → Nat
  | [] => 0
  | .mk _ _ (some rightChild) :: rest =>
    fillLeftCost rightChild + drainCost (fillLeft rightChild rest)
  | .mk _ _ none :: rest => drainCost rest
termination_by s => stackMeasure s
decreasing_by
  · rw [stackMeasure_fillLeft, stackMeasure]
    simp only [Bst.right_mk]
    omega
  · rw [stackMeasure]
    simp only [Bst.right_mk, sizeO]
    omega

theorem length_fillLeft (t : Bst E) :
    ∀ s : List (Bst E), (fillLeft t s).length = fillLeftCost t + s.length := by
  induction t using Bst.indOn with
  | h v l r ihl ihr =>
    intro s
    match l with
    | some leftChild =>
      simp only [fillLeft, fillLeftCost]
      rw [ihl leftChild rfl]
      simp only [List.length_cons]
      omega
    | none =>
      simp only [fillLeft, fillLeftCost, List.length_cons]
      omega

theorem fillLeftCost_le_height (t : Bst E) :
    fillLeftCost t ≤ heightO (some t) := by
  induction t using Bst.indOn with
  | h v l r ihl ihr =>
    match l with
    | some leftChild =>
      have h1 := ihl leftChild rfl
      have h2 := Nat.le_max_left (heightO (some leftChild)) (heightO r)
      simp only [fillLeftCost, heightO]
      omega
    | none =>
      simp only [fillLeftCost, heightO]
      omega

/-- Every node of the tree is pushed exactly once over a complete iteration:
the pushes of the initial `fill_left` plus the pushes of all `next` calls
total the subtree on top plus what the rest of the stack still owes. -/
theorem fillLeftCost_drainCost (u : Bst E) :
    ∀ s : List (Bst E),
      fillLeftCost u + drainCost (fillLeft u s) = sizeO (some u) + drainCost s := by
  induction u using Bst.indOn with
  | h v l r ihl ihr =>
    intro s
    match l with
    | some leftChild =>
      simp only [fillLeft, fillLeftCost]
      have h1 := ihl leftChild rfl (Bst.mk v (some leftChild) r :: s)
      cases r with
      | some rightChild =>
        have h2 := ihr rightChild rfl s
        simp only [drainCost] at h1
        simp only [sizeO] at h1 h2 ⊢
        omega
      | none =>
        simp only [drainCost] at h1
        simp only [sizeO] at h1 ⊢
        omega
    | none =>
      simp only [fillLeft, fillLeftCost]
      cases r with
      | some rightChild =>
        have h2 := ihr rightChild rfl s
        simp only [drainCost]
        simp only [sizeO] at h2 ⊢
        omega
      | none =>
        simp only [drainCost, sizeO]

/-- Stack states the iterator of `t` can be in: the freshly initialized
stack, and anything reached from it by `next` steps. -/
inductive Reach (t : Bst E) : List (Bst E) → Prop where
  | init : Reach t (new t)
  | step (s : List (Bst E)) : Reach t s → Reach t (next s).2

theorem heightO_pos (u : Bst E) : 1 ≤ heightO (some u) := by
  cases u with
  | mk v l r => simp [heightO]

/-- The iterator-stack shape invariant: stacked nodes have strictly
increasing heights from top to bottom, all bounded by the height of the
iterated tree. -/
def goodStack (t : Bst E) (s : List (Bst E)) : Prop :=
  List.Chain' (fun a b => heightO (some a) < heightO (some b)) s ∧
  ∀ x ∈ s, heightO (some x) ≤ heightO (some t)

theorem fillLeft_chain (u : Bst E) :
    ∀ s : List (Bst E),
      List.Chain' (fun a b => heightO (some a) < heightO (some b)) s →
      (∀ b ∈ s.head?, heightO (some u) < heightO (some b)) →
      List.Chain' (fun a b => heightO (some a) < heightO (some b)) (fillLeft u s) ∧
      (∀ x ∈ fillLeft u s, x ∈ s ∨ heightO (some x) ≤ heightO (some u)) := by
  induction u using Bst.indOn with
  | h v l r ihl ihr =>
    intro s hc hh
    match l with
    | some leftChild =>
      simp only [fillLeft]
      have hlth : heightO (some leftChild) < heightO (some (Bst.mk v (some leftChild) r)) := by
        have := Nat.le_max_left (heightO (some leftChild)) (heightO r)
        simp only [heightO]
        omega
      obtain ⟨c1, c2⟩ := ihl leftChild rfl (Bst.mk v (some leftChild) r :: s)
        (List.chain'_cons'.mpr ⟨hh, hc⟩)
        (by
          intro b hb
          simp only [List.head?_cons, Option.mem_some_iff] at hb
          subst hb
          exact hlth)
      refine ⟨c1, ?_⟩
      intro x hx
      rcases c2 x hx with hx' | hx'
      · rcases List.mem_cons.mp hx' with rfl | hmem
        · right; exact le_refl _
        · left; exact hmem
      · right; exact le_of_lt (lt_of_le_of_lt hx' hlth)
    | none =>
      simp only [fillLeft]
      refine ⟨List.chain'_cons'.mpr ⟨hh, hc⟩, ?_⟩
      intro x hx
      rcases List.mem_cons.mp hx with rfl | hmem
      · right; exact le_refl _
      · left; exact hmem

theorem step_goodStack (t : Bst E) (s : List (Bst E)) (hg : goodStack t s) :
    goodStack t (next s).2 := by
  match s with
  | [] => simpa [next] using hg
  | .mk v l none :: rest =>
    obtain ⟨hc, hb⟩ := hg
    simp only [next, Bst.right_mk]
    exact ⟨hc.tail, fun x hx => hb x (List.mem_cons_of_mem _ hx)⟩
  | .mk v l (some rightChild) :: rest =>
    obtain ⟨hc, hb⟩ := hg
    simp only [next, Bst.right_mk]
    have hrcu : heightO (some rightChild) < heightO (some (Bst.mk v l (some rightChild))) := by
      have := Nat.le_max_right (heightO l) (heightO (some rightChild))
      simp only [heightO]
      omega
    have hcc := List.chain'_cons'.mp hc
    obtain ⟨c1, c2⟩ := fillLeft_chain rightChild rest hcc.2
      (fun b hbm => lt_trans hrcu (hcc.1 b hbm))
    refine ⟨c1, ?_⟩
    intro x hx
    rcases c2 x hx with hx' | hx'
    · exact hb x (List.mem_cons_of_mem _ hx')
    · exact le_trans hx'
        (le_trans (le_of_lt hrcu) (hb _ (List.mem_cons_self _ _)))

theorem reach_goodStack (t : Bst E) (s : List (Bst E)) (h : Reach t s) :
    goodStack t s := by
  induction h with
  | init =>
    obtain ⟨c1, c2⟩ := fillLeft_chain t [] List.chain'_nil (by simp)
    refine ⟨c1, ?_⟩
    intro x hx
    rcases c2 x hx with hx' | hx'
    · exact absurd hx' (List.not_mem_nil x)
    · exact hx'
  | step s hs ih => exact step_goodStack t s ih

theorem chainlt_length_le {H : Nat} :
    ∀ (l : List Nat) (k : Nat), l.Chain' (· < ·) → (∀ x ∈ l, x ≤ H) →
      (∀ b ∈ l.head?, k ≤ b) → k ≤ H + 1 → l.length + k ≤ H + 1 := by
  intro l
  induction l with
  | nil => intro k _ _ _ hk; simpa using hk
  | cons a l' ih =>
    intro k hc hb hh hk
    have hcc := List.chain'_cons'.mp hc
    have ha : a ≤ H := hb a (List.mem_cons_self a l')
    have hka : k ≤ a := hh a (by simp)
    have h' := ih (a + 1) hcc.2
      (fun x hx => hb x (List.mem_cons_of_mem a hx))
      (fun b hbm => hcc.1 b hbm)
      (by omega)
    simp only [List.length_cons]
    omega

theorem goodStack_length_le (t : Bst E) (s : List (Bst E)) (hg : goodStack t s) :
    s.length ≤ heightO (some t) := by
  obtain ⟨hc, hb⟩ := hg
  have hmap : (s.map fun x => heightO (some x)).Chain' (· < ·) :=
    List.chain'_map_of_chain' (fun x => heightO (some x)) (fun _ _ hab => hab) hc
  have h1 := chainlt_length_le (H := heightO (some t))
    (s.map fun x => heightO (some x)) 1 hmap
    (by
      intro x hx
      obtain ⟨u, hu, rfl⟩ := List.mem_map.mp hx
      exact hb u hu)
    (by
      intro b hbm
      have hmem := List.mem_of_mem_head? hbm
      obtain ⟨u, hu, rfl⟩ := List.mem_map.mp hmem
      exact heightO_pos u)
    (by omega)
  simpa using h1

end BstIter

/-- Function `clone` returns a tree equal to the original: the deep copy preserves
every node. -/
theorem clone_eq {E : Type} (t : Bst E) : t.clone = t := by
  induction t using Bst.indOn with
  | h v l r ihl ihr =>
    cases l with
    | none =>
      cases r with
      | none => simp [Bst.clone]
      | some rightChild => simp [Bst.clone, ihr rightChild rfl]
    | some leftChild =>
      cases r with
      | none => simp [Bst.clone, ihl leftChild rfl]
      | some rightChild => simp [Bst.clone, ihl leftChild rfl, ihr rightChild rfl]

theorem step_nil {E : Type} : BstIter.step ([] : List (Bst E)) = [] := by
  simp [BstIter.step, BstIter.next]

theorem step_iterate_nil {E : Type} (k : Nat) :
    BstIter.step^[k] ([] : List (Bst E)) = [] := by
  induction k with
  | zero => rfl
  | succ n ih => rw [Function.iterate_succ_apply, step_nil, ih]

/-- After consuming every element the iterator's stack is empty. -/
theorem step_iterate_drain {E : Type} :
    ∀ s : List (Bst E), BstIter.step^[(BstIter.drain s).length] s = [] := by
  intro s
  induction s using BstIter.drain.induct with
  | case1 => simp [BstIter.drain]
  | case2 v l rightChild rest ih =>
    rw [BstIter.drain]
    simp only [List.length_cons]
    rw [Function.iterate_succ_apply]
    rw [show BstIter.step (Bst.mk v l (some rightChild) :: rest)
          = BstIter.fillLeft rightChild rest by simp [BstIter.step, BstIter.next]]
    exact ih
  | case3 v l rest ih =>
    rw [BstIter.drain]
    simp only [List.length_cons]
    rw [Function.iterate_succ_apply]
    rw [show BstIter.step (Bst.mk v l none :: rest) = rest by
      simp [BstIter.step, BstIter.next]]
    exact ih

theorem sum_eq_inorder_sum {E : Type} [AddCommMonoid E] (t : Bst E) :
    t.sum = t.inorder.sum := by
  unfold Bst.sum
  rw [Bst.iterList_eq_inorder, List.sum_eq_foldl]

theorem drain_new_eq_inorder {E : Type} (t : Bst E) :
    BstIter.drain (BstIter.new t) = t.inorder :=
  Bst.iterList_eq_inorder t

/-- C1: for every tree built by constructing a root from a single value and
then performing any sequence of `insert` calls, the in-order iterator yields a
strictly ascending sequence (per the element type's total order) of exactly the
distinct inserted values, the construction value included. -/
theorem iter_ascending_distinct_of_built {E : Type} [LinearOrder E]
    (v0 : E) (vs : List E) :
    (buildTree v0 vs).iterList.Sorted (· < ·) ∧
    ∀ x, x ∈ (buildTree v0 vs).iterList ↔ x ∈ v0 :: vs := by
  rw [Bst.iterList_eq_inorder]
  exact ⟨Bst.inorder_sorted _ (buildTree_isBst v0 vs), fun x => mem_buildTree v0 vs x⟩

/-- C2: for every tree, the values produced by the iterator, joined with
single spaces, equal the rendered string; and (provided each element renders
as a nonempty string that neither starts nor ends with a space or a bracket)
the rendered string has no leading or trailing space and no surrounding
brackets. -/
theorem iter_joined_eq_render {E : Type} (t : Bst E) (f : E → String)
    (hf : ∀ x ∈ t.inorder, f x ≠ "" ∧ (f x).data.head? ≠ some ' ' ∧
          (f x).data.getLast? ≠ some ' ' ∧ (f x).data.head? ≠ some '[' ∧
          (f x).data.getLast? ≠ some ']') :
    joinSp (t.iterList.map f) = t.render f ∧
    (t.render f).data.head? ≠ some ' ' ∧ (t.render f).data.getLast? ≠ some ' ' ∧
    (t.render f).data.head? ≠ some '[' ∧ (t.render f).data.getLast? ≠ some ']' := by
  have hj : t.render f = joinSp ((inorderO (some t)).map f) := render_eq_joinSp f t
  obtain ⟨x, rest, hx⟩ := List.exists_cons_of_ne_nil (inorderO_ne_nil t)
  have hxmem : x ∈ t.inorder := by
    unfold Bst.inorder
    rw [hx]
    exact List.mem_cons_self x rest
  rcases List.eq_nil_or_concat (inorderO (some t)) with hnil | ⟨ys, y, hy⟩
  · exact absurd hnil (inorderO_ne_nil t)
  rw [List.concat_eq_append] at hy
  have hymem : y ∈ t.inorder := by
    unfold Bst.inorder
    rw [hy]
    simp
  have hhead : (t.render f).data.head? = (f x).data.head? := by
    rw [hj, hx, List.map_cons]
    exact joinSp_data_head _ _ (data_ne_nil_of_ne_empty _ (hf x hxmem).1)
  have hlast : (t.render f).data.getLast? = (f y).data.getLast? := by
    rw [hj, hy, List.map_append, List.map_singleton]
    exact joinSp_data_getLast _ _ (data_ne_nil_of_ne_empty _ (hf y hymem).1)
  refine ⟨?_, ?_, ?_, ?_, ?_⟩
  · rw [Bst.iterList_eq_inorder, hj]
    rfl
  · rw [hhead]; exact (hf x hxmem).2.1
  · rw [hlast]; exact (hf y hymem).2.2.1
  · rw [hhead]; exact (hf x hxmem).2.2.2.1
  · rw [hlast]; exact (hf y hymem).2.2.2.2

theorem iter_joined_eq_render_witness :
    joinSp (((Bst.mk (5:Int) (some (Bst.mk 3 none none)) none).iterList).map
        (fun _ => "a")) =
      (Bst.mk (5:Int) (some (Bst.mk 3 none none)) none).render (fun _ => "a") ∧
    ((Bst.mk (5:Int) (some (Bst.mk 3 none none)) none).render
        (fun _ => "a")).data.head? ≠ some ' ' ∧
    ((Bst.mk (5:Int) (some (Bst.mk 3 none none)) none).render
        (fun _ => "a")).data.getLast? ≠ some ' ' ∧
    ((Bst.mk (5:Int) (some (Bst.mk 3 none none)) none).render
        (fun _ => "a")).data.head? ≠ some '[' ∧
    ((Bst.mk (5:Int) (some (Bst.mk 3 none none)) none).render
        (fun _ => "a")).data.getLast? ≠ some ']' :=
  iter_joined_eq_render (Bst.mk 5 (some (Bst.mk 3 none none)) none) (fun _ => "a")
    (by
      intro x hx
      refine ⟨?_, ?_, ?_, ?_, ?_⟩
      · show ("a" : String) ≠ ""
        decide
      · show ("a" : String).data.head? ≠ some ' '
        decide
      · show ("a" : String).data.getLast? ≠ some ' '
        decide
      · show ("a" : String).data.head? ≠ some '['
        decide
      · show ("a" : String).data.getLast? ≠ some ']'
        decide)

/-- C3: `sum` is the arithmetic total of the distinct inserted values, and
it is computed as a fold that starts from the additive identity and adds each
iterator element in ascending (in-order) position. -/
theorem sum_totals_distinct_values {E : Type} [LinearOrder E] [AddCommMonoid E]
    [DecidableEq E] (v0 : E) (vs : List E) :
    (buildTree v0 vs).sum = ((v0 :: vs).dedup).sum ∧
    (∀ t : Bst E, t.sum = t.inorder.sum) ∧
    (∀ t : Bst E, t.sum = t.inorder.foldl (fun accum value => accum + value) 0) := by
  refine ⟨?_, fun t => sum_eq_inorder_sum t, fun t => ?_⟩
  · rw [sum_eq_inorder_sum]
    exact List.Perm.sum_eq (inorder_buildTree_perm v0 vs)
  · rw [sum_eq_inorder_sum, List.sum_eq_foldl]

/-- C4: inserting a value already present in a (search-invariant) tree
returns `false` and leaves the tree — in particular its rendered form —
unchanged. -/
theorem insert_duplicate_noop {E : Type} [LinearOrder E] (f : E → String)
    (t : Bst E) (v : E) (hb : IsBstO (some t)) (hm : v ∈ t.inorder) :
    t.insert v = (false, t) ∧ ((t.insert v).2).render f = t.render f := by
  have h := Bst.insert_present t v hb hm
  exact ⟨h, by rw [h]⟩

theorem insert_duplicate_noop_witness :
    ((Bst.mk (5:Int) (some (Bst.mk 3 none none)) none).insert 3
        = (false, Bst.mk 5 (some (Bst.mk 3 none none)) none)) ∧
    (((Bst.mk (5:Int) (some (Bst.mk 3 none none)) none).insert 3).2.render
        (fun _ => "a")
        = (Bst.mk (5:Int) (some (Bst.mk 3 none none)) none).render (fun _ => "a")) :=
  insert_duplicate_noop (fun _ => "a") (Bst.mk 5 (some (Bst.mk 3 none none)) none) 3
    (by norm_num [IsBstO, inorderO])
    (by simp [Bst.inorder, inorderO])

/-- C5: `insert` proceeds by three-way comparison with the node value: on
equal it does not insert and returns `false`; on less it attaches a new leaf
at an absent left child and returns `true`, otherwise recurses into the left
child and returns its result; on greater it behaves symmetrically on the
right. -/
theorem insert_three_way_cases {E : Type} [LinearOrder E] (v x : E)
    (l r : Option (Bst E)) :
    (x = v → (Bst.mk v l r).insert x = (false, Bst.mk v l r)) ∧
    (x < v →
      (l = none →
        (Bst.mk v l r).insert x = (true, Bst.mk v (some (Bst.new x)) r)) ∧
      (∀ leftChild, l = some leftChild →
        (Bst.mk v l r).insert x
          = ((leftChild.insert x).1, Bst.mk v (some (leftChild.insert x).2) r))) ∧
    (v < x →
      (r = none →
        (Bst.mk v l r).insert x = (true, Bst.mk v l (some (Bst.new x)))) ∧
      (∀ rightChild, r = some rightChild →
        (Bst.mk v l r).insert x
          = ((rightChild.insert x).1, Bst.mk v l (some (rightChild.insert x).2)))) := by
  refine ⟨?_, fun hlt => ⟨?_, ?_⟩, fun hgt => ⟨?_, ?_⟩⟩
  · intro hq
    subst hq
    exact Bst.insert_of_compare_eq l r (compare_eq_iff_eq.mpr rfl)
  · intro hq
    subst hq
    exact Bst.insert_of_compare_lt_none r (compare_lt_iff_lt.mpr hlt)
  · intro leftChild hq
    subst hq
    exact Bst.insert_of_compare_lt_some leftChild r (compare_lt_iff_lt.mpr hlt)
  · intro hq
    subst hq
    exact Bst.insert_of_compare_gt_none l (compare_gt_iff_gt.mpr hgt)
  · intro rightChild hq
    subst hq
    exact Bst.insert_of_compare_gt_some l rightChild (compare_gt_iff_gt.mpr hgt)

/-- C6: building a tree from `n` distinct insertions (construction value
counted) makes the iterator yield exactly `n` elements, after which its stack
is empty and every further step deterministically yields nothing, repeatably. -/
theorem iter_yields_n_then_exhausts {E : Type} [LinearOrder E] [DecidableEq E]
    (v0 : E) (vs : List E) (h : (v0 :: vs).Nodup) :
    (buildTree v0 vs).iterList.length = (v0 :: vs).length ∧
    BstIter.step^[(v0 :: vs).length] (BstIter.new (buildTree v0 vs)) = [] ∧
    (∀ k, BstIter.step^[k] ([] : List (Bst E)) = [] ∧
          BstIter.next (BstIter.step^[k] ([] : List (Bst E))) = (none, [])) := by
  have hlen : (buildTree v0 vs).iterList.length = (v0 :: vs).length := by
    rw [Bst.iterList_eq_inorder]
    have hp := inorder_buildTree_perm v0 vs
    rw [List.dedup_eq_self.mpr h] at hp
    exact hp.length_eq
  refine ⟨hlen, ?_, fun k => ⟨step_iterate_nil k, ?_⟩⟩
  · have hd := step_iterate_drain (BstIter.new (buildTree v0 vs))
    rwa [show (BstIter.drain (BstIter.new (buildTree v0 vs))).length
          = (v0 :: vs).length from hlen] at hd
  · rw [step_iterate_nil k]
    simp [BstIter.next]

theorem iter_yields_n_then_exhausts_witness :
    (buildTree (5:Int) [3, 7]).iterList.length = ([5, 3, 7] : List Int).length ∧
    BstIter.step^[([5, 3, 7] : List Int).length]
        (BstIter.new (buildTree (5:Int) [3, 7])) = [] ∧
    (∀ k, BstIter.step^[k] ([] : List (Bst Int)) = [] ∧
          BstIter.next (BstIter.step^[k] ([] : List (Bst Int))) = (none, [])) :=
  iter_yields_n_then_exhausts 5 [3, 7] (by decide)

/-- C7: `clone` is a deep copy that reproduces the tree exactly: the clone
is equal to the original (hence renders identically), and since the embedding
gives trees value semantics, an `insert` into either tree yields a new value
and cannot change the other. -/
theorem clone_deep_copy_renders_identical {E : Type} (f : E → String) (t : Bst E) :
    t.clone = t ∧ (t.clone).render f = t.render f := by
  refine ⟨clone_eq t, ?_⟩
  rw [clone_eq t]

/-- C8: the iterator's auxiliary stack never exceeds the tree height (at
initialization and at every reachable state), `fill_left`'s recursion depth is
also bounded by the height, and a complete iteration performs exactly one push
per node — `size t` pushes for `size t` yielded elements, O(1) amortized. -/
theorem iterator_lazy_space_time {E : Type} (t : Bst E) :
    (∀ s, BstIter.Reach t s → s.length ≤ heightO (some t)) ∧
    (BstIter.new t).length ≤ heightO (some t) ∧
    BstIter.fillLeftCost t ≤ heightO (some t) ∧
    BstIter.fillLeftCost t + BstIter.drainCost (BstIter.new t) = sizeO (some t) ∧
    (BstIter.drain (BstIter.new t)).length = sizeO (some t) := by
  refine ⟨?_, ?_, BstIter.fillLeftCost_le_height t, ?_, ?_⟩
  · intro s hr
    exact BstIter.goodStack_length_le t s (BstIter.reach_goodStack t s hr)
  · rw [BstIter.new, BstIter.length_fillLeft]
    simpa using BstIter.fillLeftCost_le_height t
  · have h := BstIter.fillLeftCost_drainCost t []
    rw [BstIter.new]
    simpa [BstIter.drainCost] using h
  · rw [drain_new_eq_inorder]
    exact length_inorderO t

/-- C9: there is no empty tree: every tree holds at least one value, its
in-order listing and iterator sequence are nonempty, and (as long as elements
render nonempty) its rendered string is nonempty. -/
theorem tree_never_empty {E : Type} (t : Bst E) (f : E → String)
    (hf : ∀ x ∈ t.inorder, f x ≠ "") :
    1 ≤ sizeO (some t) ∧ t.inorder ≠ [] ∧ t.iterList ≠ [] ∧ t.render f ≠ "" := by
  obtain ⟨x, rest, hx⟩ := List.exists_cons_of_ne_nil (inorderO_ne_nil t)
  have hxmem : x ∈ t.inorder := by
    unfold Bst.inorder
    rw [hx]
    exact List.mem_cons_self x rest
  refine ⟨?_, ?_, ?_, ?_⟩
  · have hl := length_inorderO t
    rw [hx] at hl
    simp only [List.length_cons] at hl
    omega
  · unfold Bst.inorder
    exact inorderO_ne_nil t
  · rw [Bst.iterList_eq_inorder]
    unfold Bst.inorder
    exact inorderO_ne_nil t
  · have hne : (f x).data ≠ [] := data_ne_nil_of_ne_empty _ (hf x hxmem)
    obtain ⟨c, cs, hc⟩ := List.exists_cons_of_ne_nil hne
    have hh : (t.render f).data.head? = (f x).data.head? := by
      rw [render_eq_joinSp f t, hx, List.map_cons]
      exact joinSp_data_head _ _ hne
    intro hempty
    have h0 : (t.render f).data.head? = none := by rw [hempty]; rfl
    have h1 := hh.symm.trans h0
    rw [hc] at h1
    simp at h1

theorem tree_never_empty_witness :
    1 ≤ sizeO (some (Bst.new (5:Int))) ∧ (Bst.new (5:Int)).inorder ≠ [] ∧
    (Bst.new (5:Int)).iterList ≠ [] ∧
    (Bst.new (5:Int)).render (fun _ => "a") ≠ "" :=
  tree_never_empty (Bst.new 5) (fun _ => "a")
    (by
      intro x hx
      show ("a" : String) ≠ ""
      decide)

/-- C10: the iterator needs no ordering of the element type and is a
correct in-order traversal of any tree shape: for every tree it yields exactly
the left-subtree, node, right-subtree listing (so each node's value appears
exactly once, in that order). -/
theorem iter_is_inorder_any_shape {E : Type} (t : Bst E) :
    t.iterList = t.inorder :=
  Bst.iterList_eq_inorder t
